import Mathlib

/-!
Verification of the geohash library (`geohash2.py`).

Shallow embedding: Python strings become `List Char`, Python float
arithmetic becomes exact rational arithmetic over `ℚ` (every quantity the
algorithms manipulate is obtained from the initial interval bounds by
halving and midpoints, so the idealisation is faithful for the precisions
involved), Python dictionary lookups that can raise `KeyError` become
`Option`-valued functions (`none` models the raised exception), and
`None`/empty-string default arguments become `Option (List Char)`.
-/

namespace GeoHash

/-- The base-32 geohash alphabet, `GeoHash.__base32` in the source:
`"0123456789bcdefghjkmnpqrstuvwxyz"`. -/
def base32 : List Char :=
  ['0','1','2','3','4','5','6','7','8','9','b','c','d','e','f','g',
   'h','j','k','m','n','p','q','r','s','t','u','v','w','x','y','z']

/-- Position of a character in a list, or `none` when absent. -/
def indexOfChar (c : Char) : List Char → Option Nat
  | [] => none
  | d :: ds => if d = c then some 0 else (indexOfChar c ds).map (· + 1)

/-- The dictionary `GeoHash.__base32_map`: character to its 5-bit value.
`none` models a `KeyError` for characters outside the alphabet. -/
def base32Map (c : Char) : Option Nat := indexOfChar c base32

/-- Indexing into the alphabet, `GeoHash.__base32[n]`.  Every index the
source produces is `< 32` (5-bit accumulator, `% 32`, `&& 31`), so the
out-of-range default is never reached on the source's code paths. -/
def base32Nth (n : Nat) : Char := base32.getD n ' '

/-- Validity of a geohash string: every character is in the alphabet. -/
def ValidGeo (l : List Char) : Prop := ∀ c ∈ l, c ∈ base32

instance : DecidablePred ValidGeo := fun l =>
  List.decidableBAll (· ∈ base32) l

/-! ### Codec: `encode_geohash` / `decode_geohash` -/

/-- The mutable state of the encode/decode loops: the two bisection
intervals (`lat_interval`, `lon_interval`) and the `even` flag. -/
structure EncState where
  latLo : ℚ
  latHi : ℚ
  lonLo : ℚ
  lonHi : ℚ
  even : Bool
  deriving DecidableEq, Repr

/-- The initial state: `lat_interval = [-90, 90]`,
`lon_interval = [-180, 180]`, `even = True`. -/
def initState : EncState := ⟨-90, 90, -180, 180, true⟩

/-- One iteration of the `while` loop of `encode_geohash`: bisect the
active interval at its midpoint, emit the bit, narrow, flip `even`. -/
def encStep (lat lon : ℚ) (s : EncState) : Bool × EncState :=
  if s.even then
    let mid := (s.lonLo + s.lonHi) / 2
    if lon > mid then (true, { s with lonLo := mid, even := !s.even })
    else (false, { s with lonHi := mid, even := !s.even })
  else
    let mid := (s.latLo + s.latHi) / 2
    if lat > mid then (true, { s with latLo := mid, even := !s.even })
    else (false, { s with latHi := mid, even := !s.even })

/-- Numeric value of one emitted bit. -/
def bitVal (b : Bool) : Nat := if b then 1 else 0

/-- Five consecutive loop iterations of `encode_geohash`, accumulating
`ch |= 1 << (4 - bit)`: the emitted 5-bit character value and the state
after the five bisections. -/
def encChar (lat lon : ℚ) (s : EncState) : Nat × EncState :=
  let r0 := encStep lat lon s
  let r1 := encStep lat lon r0.2
  let r2 := encStep lat lon r1.2
  let r3 := encStep lat lon r2.2
  let r4 := encStep lat lon r3.2
  (16 * bitVal r0.1 + 8 * bitVal r1.1 + 4 * bitVal r2.1 + 2 * bitVal r3.1
     + bitVal r4.1, r4.2)

/-- The `while len(geohash) < precision` loop of `encode_geohash`,
returning the emitted characters together with the final interval state. -/
def encodeFromSt (lat lon : ℚ) : Nat → EncState → List Char × EncState
  | 0, s => ([], s)
  | p + 1, s =>
    let c := encChar lat lon s
    let rest := encodeFromSt lat lon p c.2
    (base32Nth c.1 :: rest.1, rest.2)

/-- `GeoHash.encode_geohash(lat, lon, precision)`. -/
def encode_geohash (lat lon : ℚ) (precision : Nat) : List Char :=
  (encodeFromSt lat lon precision initState).1

/-- The final interval state reached by `encode_geohash`. -/
def encodeFinal (lat lon : ℚ) (precision : Nat) : EncState :=
  (encodeFromSt lat lon precision initState).2

/-- Replay one decoded bit on the interval state: narrowing performed by
`decode_geohash` for a set (`true`) or clear (`false`) bit, identical to
the narrowing of `encode_geohash`. -/
def applyBit (b : Bool) (s : EncState) : EncState :=
  if s.even then
    let mid := (s.lonLo + s.lonHi) / 2
    if b then { s with lonLo := mid, even := !s.even }
    else { s with lonHi := mid, even := !s.even }
  else
    let mid := (s.latLo + s.latHi) / 2
    if b then { s with latLo := mid, even := !s.even }
    else { s with latHi := mid, even := !s.even }

/-- The five bits of a character value, most significant first:
`cd & mask for mask in [16, 8, 4, 2, 1]`. -/
def charBits (cd : Nat) : List Bool :=
  [cd &&& 16 != 0, cd &&& 8 != 0, cd &&& 4 != 0, cd &&& 2 != 0,
   cd &&& 1 != 0]

/-- The character loop of `decode_geohash`: replay every character's five
bits on the interval state; `none` models the `KeyError` raised by
`__base32_map[c]` on an invalid character. -/
def decodeChars : List Char → EncState → Option EncState
  | [], s => some s
  | c :: cs, s =>
    match base32Map c with
    | none => none
    | some cd => decodeChars cs ((charBits cd).foldl (fun t b => applyBit b t) s)

/-- `GeoHash.decode_geohash(gh)`: midpoints of the final intervals. -/
def decode_geohash (gh : List Char) : Option (ℚ × ℚ) :=
  (decodeChars gh initState).map
    (fun s => ((s.latLo + s.latHi) / 2, (s.lonLo + s.lonHi) / 2))

/-! ### Integer packing: `geohash_to_int` / `int_to_geohash` -/

/-- The accumulator loop of `geohash_to_int`:
`result = result * 32 + base32_map[char]`, `none` on `KeyError`. -/
def geohashToIntGo : List Char → Nat → Option Nat
  | [], r => some r
  | c :: cs, r =>
    match base32Map c with
    | none => none
    | some i => geohashToIntGo cs (r * 32 + i)

/-- `GeoHash.geohash_to_int(geohash)`. -/
def geohash_to_int (geohash : List Char) : Option Nat :=
  geohashToIntGo geohash 0

/-- `GeoHash.int_to_geohash(geohash_int, precision)`: the loop prepends
`base32[geohash_int & 31]` and shifts `geohash_int >>= 5`, `precision`
times; so the first emitted character ends up last. -/
def int_to_geohash : Nat → Nat → List Char
  | _, 0 => []
  | v, p + 1 => int_to_geohash (v >>> 5) p ++ [base32Nth (v &&& 31)]

/-! ### Neighbor resolver -/

/-- The border table `GeoHash.__borders[d][t]` where `t = len(gh) % 2`.
The source dictionary only has keys `'n'`, `'s'`, `'e'`, `'w'`, and
`neighbor` only indexes it with those; the default `[]` is unreachable. -/
def bordersTab (d : Char) (t : Nat) : List Char :=
  if d = 'n' then (if t = 0 then ['p','r','x','z'] else ['b','c','f','g','u','v','y','z'])
  else if d = 's' then (if t = 0 then ['0','2','8','b'] else ['0','1','4','5','h','j','n','p'])
  else if d = 'e' then (if t = 0 then ['b','c','f','g','u','v','y','z'] else ['p','r','x','z'])
  else if d = 'w' then (if t = 0 then ['0','1','4','5','h','j','n','p'] else ['0','2','8','b'])
  else []

/-- The body of `GeoHash.neighbor` for a single-axis direction `d`
(lines 138–164 of the source), with an explicit recursion budget so the
definition is structurally recursive: empty input returns `''`; a border
last character triggers the recursive parent substitution (on the
strictly shorter `dropLast`, so a budget of `gh.length` always
suffices and the out-of-budget branch is unreachable); then the adjacent
character is computed as `base32[(base32_map[last_char] + 1) % 32]`.
`none` models the `KeyError` of `base32_map[last_char]`. -/
def neighborGo : Nat → List Char → Char → Option (List Char)
  | _, [], _ => some []
  | 0, _ :: _, _ => none
  | fuel + 1, gh, d =>
    (if gh.getLastD ' ' ∈ bordersTab d (gh.length % 2)
       then neighborGo fuel gh.dropLast d
       else some gh.dropLast).bind fun nb =>
      (base32Map (gh.getLastD ' ')).map fun idx =>
        nb ++ [base32Nth ((idx + 1) % 32)]

/-- Single-axis `GeoHash.neighbor`, with the always-sufficient budget. -/
def neighborMain (gh : List Char) (d : Char) : Option (List Char) :=
  neighborGo gh.length gh d

/-- `GeoHash.neighbor(gh, direction)`.  A compound direction applies the
main axis first and then feeds the result back through `neighbor` with
the second axis (which, the input being re-checked for emptiness inside
`neighborMain`, is exactly a second `neighborMain`).  A direction outside
the eight-element enumeration returns `''`. -/
def neighbor (gh : List Char) (direction : List Char) : Option (List Char) :=
  if gh = [] then some []
  else if direction = ['n'] ∨ direction = ['s'] ∨ direction = ['e'] ∨
          direction = ['w'] then
    neighborMain gh (direction.headD ' ')
  else if direction = ['n','e'] ∨ direction = ['n','w'] ∨
          direction = ['s','e'] ∨ direction = ['s','w'] then
    (neighborMain gh (direction.headD ' ')).bind fun nb =>
      neighborMain nb (direction.getLastD ' ')
  else some []

/-! ### Quadtree subdivider -/

/-- The Z-order matrix of `quadtree_split_even` (4 rows × 8 columns). -/
def zEven : List (List Char) :=
  [['b','c','f','g','u','v','y','z'],
   ['8','9','d','e','s','t','w','x'],
   ['2','3','6','7','k','m','q','r'],
   ['0','1','4','5','h','j','n','p']]

/-- The Z-order matrix of `quadtree_split_odd` (8 rows × 4 columns). -/
def zOdd : List (List Char) :=
  [['p','r','x','z'],
   ['n','q','w','y'],
   ['j','m','t','v'],
   ['h','k','s','u'],
   ['5','7','e','g'],
   ['4','6','d','f'],
   ['1','3','9','c'],
   ['0','2','8','b']]

/-- Python truthiness of an optional-string bound: `None` and `""` are
falsy, a non-empty string is truthy (`if min_hash and max_hash:`). -/
def truthy : Option (List Char) → Bool
  | some (_ :: _) => true
  | _ => false

/-- Python `<=` on strings: code-point lexicographic order, a proper
prefix being smaller. -/
def pyLe : List Char → List Char → Bool
  | [], _ => true
  | _ :: _, [] => false
  | a :: as, b :: bs =>
    if a < b then true else if b < a then false else pyLe as bs

/-- One cell of the child matrix: the dictionary built by
`quadtree_split_even`/`odd` followed by `children.get(cell, '')`.  Every
cell character occurs exactly once per Z-order matrix and its entry
depends only on the cell itself, so the dictionary indexing collapses to
this per-cell function. -/
def splitCell (geohash : List Char) (mn mx : Option (List Char))
    (cell : Char) : List Char :=
  let child := geohash ++ [cell]
  if truthy mn && truthy mx then
    if pyLe (mn.getD []) child && pyLe child (mx.getD []) then child else []
  else child

/-- `GeoHash.quadtree_split_even(geohash, min_hash, max_hash)`. -/
def quadtree_split_even (geohash : List Char)
    (mn mx : Option (List Char)) : List (List (List Char)) :=
  zEven.map fun row => row.map (splitCell geohash mn mx)

/-- `GeoHash.quadtree_split_odd(geohash, min_hash, max_hash)`. -/
def quadtree_split_odd (geohash : List Char)
    (mn mx : Option (List Char)) : List (List (List Char)) :=
  zOdd.map fun row => row.map (splitCell geohash mn mx)

/-- `GeoHash.quadtree_split_geo(geohash, min_hash, max_hash)`. -/
def quadtree_split_geo (geohash : List Char)
    (mn mx : Option (List Char)) : List (List (List Char)) :=
  if geohash.length % 2 = 0 then quadtree_split_even geohash mn mx
  else quadtree_split_odd geohash mn mx

/-! ### Range checker -/

/-- `GeoHash.create_bitmask(precision)`. -/
def create_bitmask (precision : Nat) : Nat := (1 <<< (5 * precision)) - 1

/-- `GeoHash.check_within_bounds(geohash, min_hash, max_hash)`: pack all
three strings, right-shift to the shortest common precision, mask, and
compare.  `none` models a `KeyError` from `geohash_to_int`. -/
def check_within_bounds (geohash mn mx : List Char) : Option Bool :=
  let precision := min geohash.length (min mn.length mx.length)
  let mask := create_bitmask precision
  (geohash_to_int geohash).bind fun gi =>
    (geohash_to_int mn).bind fun mni =>
      (geohash_to_int mx).bind fun mxi =>
        let g2 := (gi >>> (5 * (geohash.length - precision))) &&& mask
        let n2 := (mni >>> (5 * (mn.length - precision))) &&& mask
        let x2 := (mxi >>> (5 * (mx.length - precision))) &&& mask
        some (decide (n2 ≤ g2 ∧ g2 ≤ x2))

/-- `GeoHash.check_within_bounds_lexicographic(geohash, min_hash,
max_hash)`: truncate all three to the shortest length and compare
lexicographically. -/
def check_within_bounds_lexicographic (geohash mn mx : List Char) : Bool :=
  let precision := min geohash.length (min mn.length mx.length)
  pyLe (mn.take precision) (geohash.take precision) &&
    pyLe (geohash.take precision) (mx.take precision)

/-! ### Helper lemmas about the alphabet tables -/

theorem indexOfChar_lt_length {c : Char} :
    ∀ {l : List Char} {i : Nat}, indexOfChar c l = some i → i < l.length := by
  intro l
  induction l with
  | nil => intro i h; simp [indexOfChar] at h
  | cons d ds ih =>
    intro i h
    by_cases hd : d = c
    · simp only [indexOfChar, if_pos hd, Option.some_inj] at h
      simp only [List.length_cons]
      omega
    · simp only [indexOfChar, if_neg hd, Option.map_eq_some'] at h
      obtain ⟨j, hj, rfl⟩ := h
      have := ih hj
      simp only [List.length_cons]
      omega

theorem indexOfChar_getD {c : Char} :
    ∀ {l : List Char} {i : Nat}, indexOfChar c l = some i → l.getD i ' ' = c := by
  intro l
  induction l with
  | nil => intro i h; simp [indexOfChar] at h
  | cons d ds ih =>
    intro i h
    by_cases hd : d = c
    · simp [indexOfChar, hd] at h
      simp [← h, hd]
    · simp only [indexOfChar, if_neg hd, Option.map_eq_some'] at h
      obtain ⟨j, hj, rfl⟩ := h
      simpa using ih hj

theorem indexOfChar_isSome_of_mem {c : Char} :
    ∀ {l : List Char}, c ∈ l → ∃ i, indexOfChar c l = some i := by
  intro l
  induction l with
  | nil => intro h; cases h
  | cons d ds ih =>
    intro h
    by_cases hd : d = c
    · exact ⟨0, by simp [indexOfChar, hd]⟩
    · rcases List.mem_cons.mp h with rfl | hmem
      · exact absurd rfl hd
      · obtain ⟨i, hi⟩ := ih hmem
        exact ⟨i + 1, by simp [indexOfChar, hd, hi]⟩

theorem indexOfChar_eq_none_of_not_mem {c : Char} :
    ∀ {l : List Char}, c ∉ l → indexOfChar c l = none := by
  intro l
  induction l with
  | nil => intro _; rfl
  | cons d ds ih =>
    intro h
    have hd : d ≠ c := fun hdc => h (hdc ▸ List.mem_cons_self d ds)
    have hm : c ∉ ds := fun hmem => h (List.mem_cons_of_mem d hmem)
    simp [indexOfChar, hd, ih hm]

theorem base32Map_of_mem {c : Char} (h : c ∈ base32) :
    ∃ i, base32Map c = some i ∧ i < 32 ∧ base32Nth i = c := by
  obtain ⟨i, hi⟩ := indexOfChar_isSome_of_mem h
  exact ⟨i, hi, indexOfChar_lt_length hi, indexOfChar_getD hi⟩

theorem base32Map_eq_none {c : Char} (h : c ∉ base32) : base32Map c = none :=
  indexOfChar_eq_none_of_not_mem h

theorem base32Nth_mem {n : Nat} (h : n < 32) : base32Nth n ∈ base32 := by
  have hl : n < base32.length := h
  rw [base32Nth, List.getD_eq_getElem base32 ' ' hl]
  exact List.getElem_mem hl

set_option maxRecDepth 4000 in
theorem base32Map_base32Nth : ∀ n, n < 32 → base32Map (base32Nth n) = some n := by
  decide

/-! ### Claim C1 — neighbor north-then-south -/

/--
Claim C1: the spec asserts `neighbor(neighbor(g, "n"), "s") == g` (and
`e`/`w` symmetrically) away from root-level border wrap-around.  The code
does not satisfy this: `neighbor` computes the adjacent character as
`base32[(index + 1) % 32]` regardless of direction, ignoring the
adjacency tables `__neighbors` that the class carries for exactly this
purpose.  This theorem evaluates the code at the failing input `g = "7"`
(not a border case for n/s or e/w at the root): north then south yields
`"9"`, not `"7"`, and east then west also yields `"9"`.
-/
theorem neighbor_north_south_violated :
    neighbor ['7'] ['n'] = some ['8'] ∧ neighbor ['8'] ['s'] = some ['9'] ∧
    neighbor ['7'] ['e'] = some ['8'] ∧ neighbor ['8'] ['w'] = some ['9'] ∧
    (['9'] : List Char) ≠ ['7'] := by
  refine ⟨?_, ?_, ?_, ?_, by decide⟩ <;> decide

/-! ### Claim C2 — concrete scenario -/

/--
Claim C2: of the four concrete assertions, three hold on the code —
`encode(57.64911, 10.40744, 6) = "u4pruy"`, `decode("u4pruy")` is within
0.01° of (57.649, 10.407) (the exact decoded midpoint is
(944505/16384, 85275/8192)), and
`within_bounds("u1kwus", "u1kwum", "u1kwuu")` is true.  The fourth fails:
`neighbor("u4pruy", "n")` gives `"u4pruz"` but `neighbor("u4pruz", "s")`
gives `"u4pru0"`, not `"u4pruy"`, because `neighbor` increments the last
character instead of consulting the adjacency tables.  The last two
conjuncts evaluate the code at that failing input.
-/
theorem concrete_scenario_eval :
    encode_geohash (5764911 / 100000) (1040744 / 100000) 6 =
      ['u','4','p','r','u','y'] ∧
    decode_geohash ['u','4','p','r','u','y'] =
      some (944505 / 16384, 85275 / 8192) ∧
    |(944505 / 16384 : ℚ) - 57649 / 1000| ≤ 1 / 100 ∧
    |(85275 / 8192 : ℚ) - 10407 / 1000| ≤ 1 / 100 ∧
    check_within_bounds ['u','1','k','w','u','s'] ['u','1','k','w','u','m']
      ['u','1','k','w','u','u'] = some true ∧
    neighbor ['u','4','p','r','u','y'] ['n'] = some ['u','4','p','r','u','z'] ∧
    neighbor ['u','4','p','r','u','z'] ['s'] = some ['u','4','p','r','u','0'] := by
  refine ⟨?_, ?_, ?_, ?_, ?_, ?_, ?_⟩
  · norm_num [encode_geohash, encodeFromSt, encChar, encStep, initState, bitVal,
      base32Nth, base32]
  · have hu : base32Map 'u' = some 26 := by decide
    have h4 : base32Map '4' = some 4 := by decide
    have hp : base32Map 'p' = some 21 := by decide
    have hr : base32Map 'r' = some 23 := by decide
    have hy : base32Map 'y' = some 30 := by decide
    have bu : charBits 26 = [true, true, false, true, false] := by decide
    have b4 : charBits 4 = [false, false, true, false, false] := by decide
    have bp : charBits 21 = [true, false, true, false, true] := by decide
    have br : charBits 23 = [true, false, true, true, true] := by decide
    have by' : charBits 30 = [true, true, true, true, false] := by decide
    norm_num [decode_geohash, decodeChars, applyBit, hu, h4, hp, hr, hy,
      bu, b4, bp, br, by', initState]
  · rw [abs_le]; constructor <;> norm_num
  · rw [abs_le]; constructor <;> norm_num
  · decide
  · decide
  · decide

/-! ### Claim C3 — integer round-trip -/

theorem geohashToIntGo_append (xs ys : List Char) (r : Nat) :
    geohashToIntGo (xs ++ ys) r =
      (geohashToIntGo xs r).bind (geohashToIntGo ys) := by
  induction xs generalizing r with
  | nil => rfl
  | cons c cs ih =>
    simp only [List.cons_append, geohashToIntGo]
    cases base32Map c with
    | none => rfl
    | some i => exact ih _

theorem and_two_pow_sub_one (x k : Nat) : x &&& (2 ^ k - 1) = x % 2 ^ k := by
  apply Nat.eq_of_testBit_eq
  intro i
  rw [Nat.testBit_and, Nat.testBit_two_pow_sub_one, Nat.testBit_mod_two_pow,
    Bool.and_comm]

theorem int_to_geohash_go {l : List Char} :
    ∀ {r n : Nat}, geohashToIntGo l r = some n →
      int_to_geohash n l.length = l := by
  induction l using List.reverseRecOn with
  | nil => intro r n _; rfl
  | append_singleton xs x ih =>
    intro r n h
    rw [geohashToIntGo_append] at h
    cases hgo : geohashToIntGo xs r with
    | none => rw [hgo] at h; cases h
    | some m =>
      cases hmap : base32Map x with
      | none =>
        rw [hgo] at h
        simp only [Option.some_bind, geohashToIntGo, hmap] at h
        cases h
      | some i =>
        rw [hgo] at h
        simp only [Option.some_bind, geohashToIntGo, hmap, Option.some_inj] at h
        have hi32 : i < 32 := indexOfChar_lt_length hmap
        have hshift : n >>> 5 = m := by
          rw [Nat.shiftRight_eq_div_pow, ← h]
          show (m * 32 + i) / 2 ^ 5 = m
          rw [mul_comm]
          have h2 : (32 * m + i) / 32 = m + i / 32 := Nat.mul_add_div (by norm_num) m i
          simpa [Nat.div_eq_of_lt hi32] using h2
        have hand : n &&& 31 = i := by
          have h2 : n &&& (2 ^ 5 - 1) = n % 2 ^ 5 := and_two_pow_sub_one n 5
          rw [show (31 : Nat) = 2 ^ 5 - 1 from rfl, h2, ← h]
          show (m * 32 + i) % 32 = i
          rw [mul_comm, Nat.mul_add_mod]
          exact Nat.mod_eq_of_lt hi32
        rw [List.length_append, List.length_cons, List.length_nil]
        show int_to_geohash n (xs.length + 1) = xs ++ [x]
        rw [int_to_geohash, hshift, hand, ih hgo]
        simp only [base32Nth, indexOfChar_getD hmap]

/--
Claim C3: for every string `s` over the 32-character alphabet,
`int_to_geohash(geohash_to_int(s), len(s)) == s`; fixed-width unpacking
restores leading zero-value characters.
-/
theorem int_geohash_roundtrip (l : List Char) (n : Nat)
    (h : geohash_to_int l = some n) : int_to_geohash n l.length = l :=
  int_to_geohash_go h

/-- Witness for C3 at the leading-low-character input `"0u"`. -/
theorem int_geohash_roundtrip_witness :
    geohash_to_int ['0','u'] = some 26 ∧ int_to_geohash 26 2 = ['0','u'] :=
  ⟨by decide, int_geohash_roundtrip ['0','u'] 26 (by decide)⟩

/-! ### Claim C10 — empty-string bounds disable filtering -/

/--
Claim C10: `quadtree_split_geo` filters only when both bounds are truthy;
an empty-string bound (like a missing one) disables filtering entirely,
so the result equals the unbounded 32-child matrix.
-/
theorem quadtree_empty_bound_ignored (g : List Char)
    (mn mx : Option (List Char)) :
    quadtree_split_geo g (some []) mx = quadtree_split_geo g none none ∧
    quadtree_split_geo g mn (some []) = quadtree_split_geo g none none := by
  unfold quadtree_split_geo
  constructor <;> split <;>
    simp [quadtree_split_even, quadtree_split_odd, splitCell, truthy]

/-! ### Claim C9 — neighbor on empty and valid inputs -/

theorem getLastD_concat (xs : List Char) (x d : Char) :
    (xs ++ [x]).getLastD d = x := by
  rw [List.getLastD_eq_getLast?, List.getLast?_concat]; rfl

theorem neighborGo_succ (fuel : Nat) (gh : List Char) (h : gh ≠ [])
    (d : Char) :
    neighborGo (fuel + 1) gh d =
      (if gh.getLastD ' ' ∈ bordersTab d (gh.length % 2)
         then neighborGo fuel gh.dropLast d
         else some gh.dropLast).bind fun nb =>
        (base32Map (gh.getLastD ' ')).map fun idx =>
          nb ++ [base32Nth ((idx + 1) % 32)] := by
  cases gh with
  | nil => exact absurd rfl h
  | cons c cs => rfl

theorem validGeo_of_append_left {xs ys : List Char}
    (h : ValidGeo (xs ++ ys)) : ValidGeo xs :=
  fun c hc => h c (List.mem_append_left ys hc)

theorem neighborGo_spec :
    ∀ (gh : List Char), ValidGeo gh → ∀ (d : Char) (fuel : Nat),
      gh.length ≤ fuel →
      ∃ r, neighborGo fuel gh d = some r ∧ r.length = gh.length ∧
        ValidGeo r := by
  intro gh
  induction gh using List.reverseRecOn with
  | nil =>
    intro _ d fuel _
    exact ⟨[], by cases fuel <;> rfl, rfl, fun c hc => absurd hc (List.not_mem_nil c)⟩
  | append_singleton xs x ih =>
    intro hv d fuel hfuel
    have hlen : (xs ++ [x]).length = xs.length + 1 := by simp
    cases fuel with
    | zero => rw [hlen] at hfuel; omega
    | succ f =>
      have hne : xs ++ [x] ≠ [] := by simp
      have hxmem : x ∈ base32 := hv x (List.mem_append_right xs (List.mem_cons_self x []))
      obtain ⟨i, hi, hi32, _⟩ := base32Map_of_mem hxmem
      have hchar : base32Nth ((i + 1) % 32) ∈ base32 :=
        base32Nth_mem (Nat.mod_lt _ (by norm_num))
      have hxf : xs.length ≤ f := by rw [hlen] at hfuel; omega
      rw [neighborGo_succ f (xs ++ [x]) hne d, getLastD_concat,
        List.dropLast_concat]
      by_cases hb : x ∈ bordersTab d ((xs ++ [x]).length % 2)
      · rw [if_pos hb]
        obtain ⟨r', hr', hrlen, hrval⟩ := ih (validGeo_of_append_left hv) d f hxf
        refine ⟨r' ++ [base32Nth ((i + 1) % 32)], ?_, ?_, ?_⟩
        · rw [hr', Option.some_bind, hi, Option.map_some']
        · simp [hrlen]
        · intro c hc
          rcases List.mem_append.mp hc with h1 | h1
          · exact hrval c h1
          · rcases List.mem_cons.mp h1 with rfl | h2
            · exact hchar
            · cases h2
      · rw [if_neg hb]
        refine ⟨xs ++ [base32Nth ((i + 1) % 32)], ?_, ?_, ?_⟩
        · rw [Option.some_bind, hi, Option.map_some']
        · simp
        · intro c hc
          rcases List.mem_append.mp hc with h1 | h1
          · exact validGeo_of_append_left hv c h1
          · rcases List.mem_cons.mp h1 with rfl | h2
            · exact hchar
            · cases h2

theorem neighborMain_spec (gh : List Char) (hv : ValidGeo gh) (d : Char) :
    ∃ r, neighborMain gh d = some r ∧ r.length = gh.length ∧ ValidGeo r :=
  neighborGo_spec gh hv d gh.length le_rfl

/-- The eight directions `neighbor` accepts. -/
def directions8 : List (List Char) :=
  [['n'], ['s'], ['e'], ['w'], ['n','e'], ['n','w'], ['s','e'], ['s','w']]

theorem neighbor_spec (gh : List Char) (hv : ValidGeo gh)
    (direction : List Char) (hd : direction ∈ directions8) :
    ∃ r, neighbor gh direction = some r ∧ r.length = gh.length ∧
      ValidGeo r := by
  by_cases hgh : gh = []
  · subst hgh
    exact ⟨[], by rw [neighbor, if_pos rfl], rfl,
      fun c hc => absurd hc (List.not_mem_nil c)⟩
  · simp only [directions8, List.mem_cons, List.not_mem_nil, or_false] at hd
    have single : ∀ d : Char,
        (∃ r, neighborMain gh d = some r ∧ r.length = gh.length ∧ ValidGeo r) := by
      intro d; exact neighborMain_spec gh hv d
    have diag : ∀ d1 d2 : Char,
        ∃ r, ((neighborMain gh d1).bind fun nb => neighborMain nb d2) = some r ∧
          r.length = gh.length ∧ ValidGeo r := by
      intro d1 d2
      obtain ⟨r1, hr1, hlen1, hval1⟩ := neighborMain_spec gh hv d1
      obtain ⟨r2, hr2, hlen2, hval2⟩ := neighborMain_spec r1 hval1 d2
      exact ⟨r2, by rw [hr1, Option.some_bind]; exact hr2,
        by rw [hlen2, hlen1], hval2⟩
    rcases hd with rfl | rfl | rfl | rfl | rfl | rfl | rfl | rfl
    · obtain ⟨r, hr, h1, h2⟩ := single 'n'
      exact ⟨r, by rw [neighbor, if_neg hgh, if_pos (by simp)]; exact hr, h1, h2⟩
    · obtain ⟨r, hr, h1, h2⟩ := single 's'
      exact ⟨r, by rw [neighbor, if_neg hgh, if_pos (by simp)]; exact hr, h1, h2⟩
    · obtain ⟨r, hr, h1, h2⟩ := single 'e'
      exact ⟨r, by rw [neighbor, if_neg hgh, if_pos (by simp)]; exact hr, h1, h2⟩
    · obtain ⟨r, hr, h1, h2⟩ := single 'w'
      exact ⟨r, by rw [neighbor, if_neg hgh, if_pos (by simp)]; exact hr, h1, h2⟩
    · obtain ⟨r, hr, h1, h2⟩ := diag 'n' 'e'
      refine ⟨r, ?_, h1, h2⟩
      rw [neighbor, if_neg hgh, if_neg (by simp), if_pos (by simp)]
      exact hr
    · obtain ⟨r, hr, h1, h2⟩ := diag 'n' 'w'
      refine ⟨r, ?_, h1, h2⟩
      rw [neighbor, if_neg hgh, if_neg (by simp), if_pos (by simp)]
      exact hr
    · obtain ⟨r, hr, h1, h2⟩ := diag 's' 'e'
      refine ⟨r, ?_, h1, h2⟩
      rw [neighbor, if_neg hgh, if_neg (by simp), if_pos (by simp)]
      exact hr
    · obtain ⟨r, hr, h1, h2⟩ := diag 's' 'w'
      refine ⟨r, ?_, h1, h2⟩
      rw [neighbor, if_neg hgh, if_neg (by simp), if_pos (by simp)]
      exact hr

/--
Claim C9: for each of the eight directions, `neighbor` of the empty
string is the empty string, and on any non-empty valid geohash it
returns a (non-empty) geohash of the same length.  Length preservation
is stated for every valid input; for the empty input the preserved
length is 0, matching the empty-result contract.
-/
theorem neighbor_length_contract (gh : List Char) (direction : List Char)
    (hv : ValidGeo gh)
    (hd : direction ∈ directions8) :
    neighbor [] direction = some [] ∧
    (neighbor gh direction).map List.length = some gh.length := by
  obtain ⟨r, hr, hlen, _⟩ := neighbor_spec gh hv direction hd
  exact ⟨by rw [neighbor, if_pos rfl], by rw [hr, Option.map_some', hlen]⟩

/-- Witness for C9 at `gh = "7"`, direction `n`. -/
theorem neighbor_length_contract_witness :
    ValidGeo ['7'] ∧
    (['n'] : List Char) ∈ directions8 ∧
    (neighbor [] ['n'] = some [] ∧
      (neighbor ['7'] ['n']).map List.length = some 1) :=
  ⟨by decide, by decide,
    neighbor_length_contract ['7'] ['n'] (by decide) (by decide)⟩

/-! ### Claim C6 — quadtree children contract -/

theorem quadtree_shape (g : List Char) (mn mx : Option (List Char)) :
    (quadtree_split_geo g mn mx).map List.length =
      if g.length % 2 = 0 then [8, 8, 8, 8] else [4, 4, 4, 4, 4, 4, 4, 4] := by
  unfold quadtree_split_geo
  split <;> simp [quadtree_split_even, quadtree_split_odd, zEven, zOdd]

/--
Claim C6: `quadtree_split_geo` returns a 4×8 matrix for even-length
parents and an 8×4 matrix for odd-length parents; with no bounds it holds
exactly 32 non-empty entries, each the parent followed by one alphabet
character, placed by the fixed Z-order tables; with two non-empty bounds
an entry is the child exactly when it lies lexicographically within the
bounds and the empty placeholder otherwise, the shape being unchanged.
-/
theorem quadtree_children_contract (g : List Char)
    (mn mx : Option (List Char)) (a b : Char) (as bs : List Char) :
    ((quadtree_split_geo g mn mx).map List.length =
      if g.length % 2 = 0 then [8, 8, 8, 8] else [4, 4, 4, 4, 4, 4, 4, 4]) ∧
    (quadtree_split_geo g none none =
      (if g.length % 2 = 0 then zEven else zOdd).map fun row =>
        row.map fun c => g ++ [c]) ∧
    (((quadtree_split_geo g none none).map fun row =>
        (row.filter fun e => !e.isEmpty).length).sum = 32) ∧
    ((zEven ++ zOdd).all fun row => row.all fun c => base32.contains c) = true ∧
    (quadtree_split_geo g (some (a :: as)) (some (b :: bs)) =
      (if g.length % 2 = 0 then zEven else zOdd).map fun row =>
        row.map fun c =>
          if pyLe (a :: as) (g ++ [c]) && pyLe (g ++ [c]) (b :: bs)
          then g ++ [c] else []) := by
  refine ⟨quadtree_shape g mn mx, ?_, ?_, by decide, ?_⟩
  · unfold quadtree_split_geo
    split <;> simp [quadtree_split_even, quadtree_split_odd, splitCell, truthy]
  · unfold quadtree_split_geo
    split <;>
      simp [quadtree_split_even, quadtree_split_odd, zEven, zOdd, splitCell,
        truthy, List.isEmpty_iff]
  · unfold quadtree_split_geo
    split <;> simp [quadtree_split_even, quadtree_split_odd, splitCell, truthy]

/-! ### Claim C8 — invalid characters and error surfacing -/

theorem decodeChars_invalid {l : List Char} {c : Char} (hcb : c ∉ base32) :
    c ∈ l → ∀ s, decodeChars l s = none := by
  induction l with
  | nil => intro hc; cases hc
  | cons d ds ih =>
    intro hc s
    cases hmap : base32Map d with
    | none => simp [decodeChars, hmap]
    | some cd =>
      simp only [decodeChars, hmap]
      have hcd : c ∈ ds := by
        rcases List.mem_cons.mp hc with rfl | h
        · rw [base32Map_eq_none hcb] at hmap; cases hmap
        · exact h
      exact ih hcd _

theorem geohashToIntGo_invalid {l : List Char} {c : Char} (hcb : c ∉ base32) :
    c ∈ l → ∀ r, geohashToIntGo l r = none := by
  induction l with
  | nil => intro hc; cases hc
  | cons d ds ih =>
    intro hc r
    cases hmap : base32Map d with
    | none => simp [geohashToIntGo, hmap]
    | some cd =>
      simp only [geohashToIntGo, hmap]
      have hcd : c ∈ ds := by
        rcases List.mem_cons.mp hc with rfl | h
        · rw [base32Map_eq_none hcb] at hmap; cases hmap
        · exact h
      exact ih hcd _

theorem bordersTab_subset (d : Char) (t : Nat) :
    ∀ x ∈ bordersTab d t, x ∈ base32 := by
  unfold bordersTab
  split_ifs <;> decide

theorem neighborMain_invalid_last (l : List Char) {c : Char}
    (hcb : c ∉ base32) (d : Char) : neighborMain (l ++ [c]) d = none := by
  have hlen : (l ++ [c]).length = l.length + 1 := by simp
  rw [neighborMain, hlen,
    neighborGo_succ l.length (l ++ [c]) (by simp) d, getLastD_concat]
  have hnb : c ∉ bordersTab d ((l ++ [c]).length % 2) :=
    fun hmem => hcb (bordersTab_subset d _ c hmem)
  rw [if_neg hnb, Option.some_bind, base32Map_eq_none hcb, Option.map_none']

theorem neighbor_invalid_last (l : List Char) {c : Char} (hcb : c ∉ base32)
    (direction : List Char) (hd : direction ∈ directions8) :
    neighbor (l ++ [c]) direction = none := by
  have hne : l ++ [c] ≠ [] := by simp
  simp only [directions8, List.mem_cons, List.not_mem_nil, or_false] at hd
  rcases hd with rfl | rfl | rfl | rfl | rfl | rfl | rfl | rfl
  · rw [neighbor, if_neg hne, if_pos (by simp)]
    exact neighborMain_invalid_last l hcb _
  · rw [neighbor, if_neg hne, if_pos (by simp)]
    exact neighborMain_invalid_last l hcb _
  · rw [neighbor, if_neg hne, if_pos (by simp)]
    exact neighborMain_invalid_last l hcb _
  · rw [neighbor, if_neg hne, if_pos (by simp)]
    exact neighborMain_invalid_last l hcb _
  all_goals
    rw [neighbor, if_neg hne, if_neg (by simp), if_pos (by simp),
      neighborMain_invalid_last l hcb _, Option.none_bind]

/--
Claim C8 counterexample: the claim says every function of the four
fails on every string containing an invalid character, but `neighbor`
silently succeeds when the invalid character is not reached by a lookup:
`neighbor("!0", "n")` returns `"!1"` even though `'!'` is outside the
alphabet (and `quadtree_split_geo` performs no alphabet lookup at all).
-/
theorem invalid_char_not_always_error :
    ('!' ∉ base32) ∧ neighbor ['!', '0'] ['n'] = some ['!', '1'] :=
  ⟨by decide, by decide⟩

/--
Claim C8 amended: `decode_geohash` and `geohash_to_int` fail on every
string containing a character outside the alphabet; `neighbor` fails
whenever the invalid character is its last character (where the lookup
reaches it), for each of the eight directions; `quadtree_split_geo`
performs no alphabet lookups and always returns a full-shape matrix,
never an error.
-/
theorem invalid_char_error_surface (c : Char) (hcb : c ∉ base32)
    (l1 : List Char) (hc : c ∈ l1) (l2 : List Char)
    (direction : List Char) (hd : direction ∈ directions8)
    (g : List Char) (mn mx : Option (List Char)) :
    decode_geohash l1 = none ∧ geohash_to_int l1 = none ∧
    neighbor (l2 ++ [c]) direction = none ∧
    (quadtree_split_geo g mn mx).map List.length =
      (if g.length % 2 = 0 then [8, 8, 8, 8] else [4, 4, 4, 4, 4, 4, 4, 4]) := by
  refine ⟨?_, ?_, neighbor_invalid_last l2 hcb direction hd,
    quadtree_shape g mn mx⟩
  · rw [decode_geohash, decodeChars_invalid hcb hc, Option.map_none']
  · exact geohashToIntGo_invalid hcb hc 0

/-- Witness for the amended C8 at `c = '!'`. -/
theorem invalid_char_error_surface_witness :
    ('!' ∉ base32) ∧ ('!' ∈ (['!'] : List Char)) ∧
    ((['n'] : List Char) ∈ directions8) ∧
    (decode_geohash ['!'] = none ∧ geohash_to_int ['!'] = none ∧
      neighbor ([] ++ ['!']) ['n'] = none ∧
      (quadtree_split_geo [] none none).map List.length =
        (if ([] : List Char).length % 2 = 0 then [8, 8, 8, 8]
         else [4, 4, 4, 4, 4, 4, 4, 4])) :=
  ⟨by decide, by decide, by decide,
    invalid_char_error_surface '!' (by decide) ['!'] (by decide) []
      ['n'] (by decide) [] none none⟩

/-! ### Claim C5 — prefix monotonicity of encode -/

theorem encodeFromSt_length (lat lon : ℚ) :
    ∀ (p : Nat) (s : EncState), (encodeFromSt lat lon p s).1.length = p := by
  intro p
  induction p with
  | zero => intro s; rfl
  | succ n ih => intro s; simp [encodeFromSt, ih]

theorem encodeFromSt_add (lat lon : ℚ) :
    ∀ (p q : Nat) (s : EncState),
      encodeFromSt lat lon (p + q) s =
        ((encodeFromSt lat lon p s).1 ++
           (encodeFromSt lat lon q (encodeFromSt lat lon p s).2).1,
         (encodeFromSt lat lon q (encodeFromSt lat lon p s).2).2) := by
  intro p
  induction p with
  | zero => intro q s; simp [encodeFromSt]
  | succ n ih =>
    intro q s
    have hn : n + 1 + q = (n + q) + 1 := by omega
    rw [hn]
    simp only [encodeFromSt, ih]
    simp

/--
Claim C5: for every latitude, longitude and pair of precisions
`p1 < p2`, the geohash at precision `p1` is the length-`p1` prefix of the
geohash at precision `p2` (the extra characters only refine the cell).
-/
theorem encode_monotone_refinement (lat lon : ℚ) (p1 p2 : Nat)
    (h : p1 < p2) :
    encode_geohash lat lon p1 = (encode_geohash lat lon p2).take p1 := by
  have h2 : p2 = p1 + (p2 - p1) := by omega
  rw [encode_geohash, encode_geohash, h2, encodeFromSt_add]
  exact (List.take_left' (encodeFromSt_length lat lon p1 initState)).symm

/-- Witness for C5 at `lat = lon = 0`, `p1 = 1 < p2 = 2`. -/
theorem encode_monotone_refinement_witness :
    1 < 2 ∧ encode_geohash 0 0 1 = (encode_geohash 0 0 2).take 1 :=
  ⟨by decide, encode_monotone_refinement 0 0 1 2 (by decide)⟩

/-! ### Claim C4 — decode of encode lies in the encoded cell -/

/-- Membership of a point in the bounding rectangle of an interval
state. -/
def InRect (lat lon : ℚ) (s : EncState) : Prop :=
  s.latLo ≤ lat ∧ lat ≤ s.latHi ∧ s.lonLo ≤ lon ∧ lon ≤ s.lonHi

/-- Latitude midpoint of a rectangle, as returned by `decode_geohash`. -/
def midLat (s : EncState) : ℚ := (s.latLo + s.latHi) / 2

/-- Longitude midpoint of a rectangle, as returned by `decode_geohash`. -/
def midLon (s : EncState) : ℚ := (s.lonLo + s.lonHi) / 2

/-- Half of the latitude extent of a rectangle. -/
def halfLat (s : EncState) : ℚ := (s.latHi - s.latLo) / 2

/-- Half of the longitude extent of a rectangle. -/
def halfLon (s : EncState) : ℚ := (s.lonHi - s.lonLo) / 2

theorem encStep_applyBit (lat lon : ℚ) (s : EncState) :
    (encStep lat lon s).2 = applyBit (encStep lat lon s).1 s := by
  by_cases he : s.even = true
  · by_cases hc : lon > (s.lonLo + s.lonHi) / 2
    · simp [encStep, applyBit, he, hc]
    · simp [encStep, applyBit, he, hc]
  · by_cases hc : lat > (s.latLo + s.latHi) / 2
    · simp [encStep, applyBit, he, hc]
    · simp [encStep, applyBit, he, hc]

theorem charBits_build :
    ∀ b0 b1 b2 b3 b4 : Bool,
      charBits (16 * bitVal b0 + 8 * bitVal b1 + 4 * bitVal b2 +
        2 * bitVal b3 + bitVal b4) = [b0, b1, b2, b3, b4] := by
  decide

theorem five_bits_lt :
    ∀ b0 b1 b2 b3 b4 : Bool,
      16 * bitVal b0 + 8 * bitVal b1 + 4 * bitVal b2 + 2 * bitVal b3 +
        bitVal b4 < 32 := by
  decide

theorem encChar_lt (lat lon : ℚ) (s : EncState) :
    (encChar lat lon s).1 < 32 := by
  simp only [encChar]
  exact five_bits_lt _ _ _ _ _

theorem encChar_foldl (lat lon : ℚ) (s : EncState) :
    (charBits (encChar lat lon s).1).foldl (fun t b => applyBit b t) s =
      (encChar lat lon s).2 := by
  simp only [encChar]
  rw [charBits_build]
  simp only [List.foldl]
  rw [← encStep_applyBit lat lon s,
    ← encStep_applyBit lat lon (encStep lat lon s).2,
    ← encStep_applyBit lat lon (encStep lat lon (encStep lat lon s).2).2,
    ← encStep_applyBit lat lon
      (encStep lat lon (encStep lat lon (encStep lat lon s).2).2).2,
    ← encStep_applyBit lat lon
      (encStep lat lon
        (encStep lat lon (encStep lat lon (encStep lat lon s).2).2).2).2]

theorem decodeChars_replay (lat lon : ℚ) :
    ∀ (p : Nat) (s : EncState),
      decodeChars (encodeFromSt lat lon p s).1 s =
        some (encodeFromSt lat lon p s).2 := by
  intro p
  induction p with
  | zero => intro s; rfl
  | succ n ih =>
    intro s
    simp only [encodeFromSt, decodeChars,
      base32Map_base32Nth _ (encChar_lt lat lon s)]
    rw [encChar_foldl]
    exact ih (encChar lat lon s).2

theorem encStep_inRect (lat lon : ℚ) (s : EncState)
    (h : InRect lat lon s) : InRect lat lon (encStep lat lon s).2 := by
  obtain ⟨h1, h2, h3, h4⟩ := h
  by_cases he : s.even = true
  · by_cases hc : lon > (s.lonLo + s.lonHi) / 2
    · have hs : encStep lat lon s =
          (true, { s with lonLo := (s.lonLo + s.lonHi) / 2, even := !s.even }) := by
        simp [encStep, he, hc]
      rw [hs]
      exact ⟨h1, h2, le_of_lt hc, h4⟩
    · have hs : encStep lat lon s =
          (false, { s with lonHi := (s.lonLo + s.lonHi) / 2, even := !s.even }) := by
        simp [encStep, he, hc]
      rw [hs]
      exact ⟨h1, h2, h3, not_lt.mp hc⟩
  · by_cases hc : lat > (s.latLo + s.latHi) / 2
    · have hs : encStep lat lon s =
          (true, { s with latLo := (s.latLo + s.latHi) / 2, even := !s.even }) := by
        simp [encStep, he, hc]
      rw [hs]
      exact ⟨le_of_lt hc, h2, h3, h4⟩
    · have hs : encStep lat lon s =
          (false, { s with latHi := (s.latLo + s.latHi) / 2, even := !s.even }) := by
        simp [encStep, he, hc]
      rw [hs]
      exact ⟨h1, not_lt.mp hc, h3, h4⟩

theorem encChar_inRect (lat lon : ℚ) (s : EncState)
    (h : InRect lat lon s) : InRect lat lon (encChar lat lon s).2 := by
  simp only [encChar]
  exact encStep_inRect _ _ _ (encStep_inRect _ _ _ (encStep_inRect _ _ _
    (encStep_inRect _ _ _ (encStep_inRect _ _ _ h))))

theorem encodeFromSt_inRect (lat lon : ℚ) :
    ∀ (p : Nat) (s : EncState), InRect lat lon s →
      InRect lat lon (encodeFromSt lat lon p s).2 := by
  intro p
  induction p with
  | zero => intro s h; exact h
  | succ n ih =>
    intro s h
    simp only [encodeFromSt]
    exact ih _ (encChar_inRect lat lon s h)

/--
Claim C4: for in-range coordinates and any precision, decoding the
encoded geohash replays exactly the bounding rectangle that encoding
ended with, returns its midpoint, and both that midpoint and the
original point lie inside the rectangle; hence the decoded point differs
from the original by at most the rectangle's half-width on each axis.
-/
theorem decode_encode_in_cell (lat lon : ℚ) (p : Nat)
    (h1 : -90 ≤ lat) (h2 : lat ≤ 90) (h3 : -180 ≤ lon) (h4 : lon ≤ 180) :
    decodeChars (encode_geohash lat lon p) initState =
      some (encodeFinal lat lon p) ∧
    decode_geohash (encode_geohash lat lon p) =
      some (midLat (encodeFinal lat lon p), midLon (encodeFinal lat lon p)) ∧
    InRect (midLat (encodeFinal lat lon p)) (midLon (encodeFinal lat lon p))
      (encodeFinal lat lon p) ∧
    InRect lat lon (encodeFinal lat lon p) ∧
    |midLat (encodeFinal lat lon p) - lat| ≤ halfLat (encodeFinal lat lon p) ∧
    |midLon (encodeFinal lat lon p) - lon| ≤ halfLon (encodeFinal lat lon p) := by
  have hreplay := decodeChars_replay lat lon p initState
  have hrect : InRect lat lon (encodeFinal lat lon p) :=
    encodeFromSt_inRect lat lon p initState ⟨h1, h2, h3, h4⟩
  obtain ⟨g1, g2, g3, g4⟩ := hrect
  refine ⟨hreplay, ?_, ?_, ⟨g1, g2, g3, g4⟩, ?_, ?_⟩
  · rw [decode_geohash, encode_geohash, hreplay, Option.map_some']
    rfl
  · exact ⟨by rw [midLat]; linarith, by rw [midLat]; linarith,
      by rw [midLon]; linarith, by rw [midLon]; linarith⟩
  · rw [midLat, halfLat, abs_le]
    constructor <;> linarith
  · rw [midLon, halfLon, abs_le]
    constructor <;> linarith

/-- Witness for C4 at `lat = lon = 0`, `p = 1`. -/
theorem decode_encode_in_cell_witness :
    (-90 : ℚ) ≤ 0 ∧ (0 : ℚ) ≤ 90 ∧ (-180 : ℚ) ≤ 0 ∧ (0 : ℚ) ≤ 180 ∧
    (decodeChars (encode_geohash 0 0 1) initState =
        some (encodeFinal 0 0 1) ∧
      decode_geohash (encode_geohash 0 0 1) =
        some (midLat (encodeFinal 0 0 1), midLon (encodeFinal 0 0 1)) ∧
      InRect (midLat (encodeFinal 0 0 1)) (midLon (encodeFinal 0 0 1))
        (encodeFinal 0 0 1) ∧
      InRect 0 0 (encodeFinal 0 0 1) ∧
      |midLat (encodeFinal 0 0 1) - 0| ≤ halfLat (encodeFinal 0 0 1) ∧
      |midLon (encodeFinal 0 0 1) - 0| ≤ halfLon (encodeFinal 0 0 1)) :=
  ⟨by norm_num, by norm_num, by norm_num, by norm_num,
    decode_encode_in_cell 0 0 1 (by norm_num) (by norm_num) (by norm_num)
      (by norm_num)⟩

/-! ### Claim C7 — lexicographic vs integer bounds check -/

/-- Total 5-bit value of a character (0 for characters outside the
alphabet; only applied to valid characters in the theorems). -/
def charIdx (c : Char) : Nat := (base32Map c).getD 0

/-- The base-32 accumulator of `geohash_to_int` as a total function. -/
def valFrom (r : Nat) (l : List Char) : Nat :=
  l.foldl (fun acc c => acc * 32 + charIdx c) r

theorem charIdx_lt (c : Char) : charIdx c < 32 := by
  rw [charIdx]
  cases h : base32Map c with
  | none => exact Nat.zero_lt_succ _
  | some i => exact indexOfChar_lt_length h

theorem geohashToIntGo_val :
    ∀ (l : List Char), ValidGeo l → ∀ r, geohashToIntGo l r = some (valFrom r l) := by
  intro l
  induction l with
  | nil => intro _ r; rfl
  | cons c cs ih =>
    intro hv r
    obtain ⟨i, hi, _, _⟩ := base32Map_of_mem (hv c (List.mem_cons_self c cs))
    have hvcs : ValidGeo cs := fun x hx => hv x (List.mem_cons_of_mem c hx)
    simp only [geohashToIntGo, hi, valFrom, List.foldl_cons]
    have : charIdx c = i := by rw [charIdx, hi]; rfl
    rw [this]
    exact ih hvcs (r * 32 + i)

theorem valFrom_shift :
    ∀ (l : List Char) (r : Nat),
      valFrom r l = r * 32 ^ l.length + valFrom 0 l := by
  intro l
  induction l with
  | nil => intro r; simp [valFrom]
  | cons c cs ih =>
    intro r
    have h1 : valFrom r (c :: cs) = valFrom (r * 32 + charIdx c) cs := by
      simp [valFrom]
    have h2 : valFrom 0 (c :: cs) = valFrom (charIdx c) cs := by
      simp [valFrom]
    rw [h1, h2, ih (r * 32 + charIdx c), ih (charIdx c)]
    simp only [List.length_cons]
    ring

theorem valFrom_cons (c : Char) (cs : List Char) :
    valFrom 0 (c :: cs) = charIdx c * 32 ^ cs.length + valFrom 0 cs := by
  have h2 : valFrom 0 (c :: cs) = valFrom (charIdx c) cs := by simp [valFrom]
  rw [h2, valFrom_shift]

theorem valFrom_lt : ∀ l : List Char, valFrom 0 l < 32 ^ l.length := by
  intro l
  induction l with
  | nil => simp [valFrom]
  | cons c cs ih =>
    rw [valFrom_cons, List.length_cons, pow_succ]
    have h1 : charIdx c + 1 ≤ 32 := charIdx_lt c
    calc charIdx c * 32 ^ cs.length + valFrom 0 cs
        < charIdx c * 32 ^ cs.length + 32 ^ cs.length := by omega
      _ = (charIdx c + 1) * 32 ^ cs.length := by ring
      _ ≤ 32 * 32 ^ cs.length := Nat.mul_le_mul_right _ h1
      _ = 32 ^ cs.length * 32 := by ring

theorem valFrom_append (r : Nat) (a b : List Char) :
    valFrom r (a ++ b) = valFrom (valFrom r a) b :=
  List.foldl_append _ r a b

theorem val_shift_take (l : List Char) (p : Nat) (hp : p ≤ l.length) :
    valFrom 0 l / 32 ^ (l.length - p) = valFrom 0 (l.take p) := by
  have h0 : valFrom 0 l =
      valFrom 0 (l.take p) * 32 ^ (l.length - p) + valFrom 0 (l.drop p) := by
    conv_lhs => rw [← List.take_append_drop p l]
    rw [valFrom_append, valFrom_shift, List.length_drop]
  have hdrop : valFrom 0 (l.drop p) < 32 ^ (l.length - p) := by
    have := valFrom_lt (l.drop p)
    rwa [List.length_drop] at this
  rw [h0, mul_comm, Nat.mul_add_div (Nat.pos_pow_of_pos _ (by norm_num)),
    Nat.div_eq_of_lt hdrop, add_zero]

theorem length_take_min {l : List Char} {p : Nat} (hp : p ≤ l.length) :
    (l.take p).length = p := by
  rw [List.length_take]
  exact Nat.min_eq_left hp

theorem shift_mask_take (l : List Char) (p : Nat) (hp : p ≤ l.length) :
    (valFrom 0 l >>> (5 * (l.length - p))) &&& create_bitmask p =
      valFrom 0 (l.take p) := by
  rw [Nat.shiftRight_eq_div_pow, create_bitmask, Nat.shiftLeft_eq, one_mul,
    and_two_pow_sub_one, pow_mul, pow_mul,
    show ((2 : Nat) ^ 5 = 32) from rfl, val_shift_take l p hp]
  refine Nat.mod_eq_of_lt ?_
  have := valFrom_lt (l.take p)
  rwa [length_take_min hp] at this

set_option maxRecDepth 8000 in
theorem char_lt_iff_idx :
    ∀ c ∈ base32, ∀ d ∈ base32, (c < d ↔ charIdx c < charIdx d) := by
  decide

theorem pyLe_eq_val :
    ∀ (a b : List Char), ValidGeo a → ValidGeo b → a.length = b.length →
      pyLe a b = decide (valFrom 0 a ≤ valFrom 0 b) := by
  intro a
  induction a with
  | nil =>
    intro b _ _ hlen
    have hb : b = [] := List.eq_nil_of_length_eq_zero hlen.symm
    subst hb
    rfl
  | cons c cs ih =>
    intro b hva hvb hlen
    cases b with
    | nil => simp at hlen
    | cons d ds =>
      have hlen' : cs.length = ds.length := by simpa using hlen
      have hc : c ∈ base32 := hva c (List.mem_cons_self c cs)
      have hd : d ∈ base32 := hvb d (List.mem_cons_self d ds)
      have hvcs : ValidGeo cs := fun x hx => hva x (List.mem_cons_of_mem c hx)
      have hvds : ValidGeo ds := fun x hx => hvb x (List.mem_cons_of_mem d hx)
      have hlta : valFrom 0 cs < 32 ^ cs.length := valFrom_lt cs
      have hltb : valFrom 0 ds < 32 ^ ds.length := valFrom_lt ds
      rcases lt_trichotomy c d with hlt | heq | hgt
      · have hidx : charIdx c < charIdx d := (char_lt_iff_idx c hc d hd).mp hlt
        have hv : valFrom 0 (c :: cs) ≤ valFrom 0 (d :: ds) := by
          rw [valFrom_cons, valFrom_cons, ← hlen']
          have : (charIdx c + 1) * 32 ^ cs.length ≤ charIdx d * 32 ^ cs.length :=
            Nat.mul_le_mul_right _ hidx
          nlinarith [Nat.zero_le (valFrom 0 ds)]
        simp [pyLe, hlt, hv]
      · subst heq
        have hne : ¬ c < c := lt_irrefl c
        have hstep : pyLe (c :: cs) (c :: ds) = pyLe cs ds := by
          simp [pyLe, hne]
        rw [hstep, ih ds hvcs hvds hlen']
        have hiff : valFrom 0 cs ≤ valFrom 0 ds ↔
            valFrom 0 (c :: cs) ≤ valFrom 0 (c :: ds) := by
          rw [valFrom_cons, valFrom_cons, ← hlen']
          omega
        exact decide_eq_decide.mpr hiff
      · have hidx : charIdx d < charIdx c := (char_lt_iff_idx d hd c hc).mp hgt
        have hv : ¬ valFrom 0 (c :: cs) ≤ valFrom 0 (d :: ds) := by
          rw [valFrom_cons, valFrom_cons, ← hlen']
          have h1 : (charIdx d + 1) * 32 ^ cs.length ≤ charIdx c * 32 ^ cs.length :=
            Nat.mul_le_mul_right _ hidx
          rw [← hlen'] at hltb
          nlinarith [Nat.zero_le (valFrom 0 cs)]
        have hnlt : ¬ c < d := not_lt_of_gt hgt
        simp [pyLe, hnlt, hgt, hv]

theorem validGeo_take (l : List Char) (p : Nat) (h : ValidGeo l) :
    ValidGeo (l.take p) :=
  fun c hc => h c (List.take_subset p l hc)

theorem bounds_agree (gh mn mx : List Char) (h1 : ValidGeo gh)
    (h2 : ValidGeo mn) (h3 : ValidGeo mx) :
    check_within_bounds gh mn mx =
      some (check_within_bounds_lexicographic gh mn mx) := by
  have hpg : min gh.length (min mn.length mx.length) ≤ gh.length :=
    min_le_left _ _
  have hpm : min gh.length (min mn.length mx.length) ≤ mn.length :=
    (min_le_right _ _).trans (min_le_left _ _)
  have hpx : min gh.length (min mn.length mx.length) ≤ mx.length :=
    (min_le_right _ _).trans (min_le_right _ _)
  rw [check_within_bounds, check_within_bounds_lexicographic]
  rw [geohash_to_int, geohash_to_int, geohash_to_int]
  rw [geohashToIntGo_val gh h1 0, geohashToIntGo_val mn h2 0,
    geohashToIntGo_val mx h3 0]
  simp only [Option.some_bind]
  rw [shift_mask_take gh _ hpg, shift_mask_take mn _ hpm,
    shift_mask_take mx _ hpx]
  rw [pyLe_eq_val _ _ (validGeo_take mn _ h2) (validGeo_take gh _ h1)
      (by rw [length_take_min hpm, length_take_min hpg]),
    pyLe_eq_val _ _ (validGeo_take gh _ h1) (validGeo_take mx _ h3)
      (by rw [length_take_min hpg, length_take_min hpx])]
  rw [Bool.decide_and]

/--
Claim C7 counterexample: the claim asserts the existence of valid
inputs on which the lexicographic test and the integer test disagree.
No such inputs exist: the base-32 alphabet is sorted in code-point
order, so lexicographic comparison of equal-length prefixes coincides
with comparison of the packed integers, and both functions truncate to
the same shortest precision.
-/
theorem no_bounds_disagreement :
    ¬ ∃ gh mn mx : List Char, ValidGeo gh ∧ ValidGeo mn ∧ ValidGeo mx ∧
      check_within_bounds gh mn mx ≠
        some (check_within_bounds_lexicographic gh mn mx) :=
  fun ⟨gh, mn, mx, h1, h2, h3, hne⟩ => hne (bounds_agree gh mn mx h1 h2 h3)

/--
Claim C7 amended: for every triple of valid geohash strings the
integer-based `check_within_bounds` and the string-based
`check_within_bounds_lexicographic` return the same boolean (the
alphabet's code-point order coincides with its 5-bit value order, so no
"character boundary" can make them straddle).
-/
theorem bounds_checks_agree (gh mn mx : List Char) (h1 : ValidGeo gh)
    (h2 : ValidGeo mn) (h3 : ValidGeo mx) :
    check_within_bounds gh mn mx =
      some (check_within_bounds_lexicographic gh mn mx) :=
  bounds_agree gh mn mx h1 h2 h3

/-- Witness for the amended C7 at the benchmark inputs. -/
theorem bounds_checks_agree_witness :
    ValidGeo ['u','1','k','w','u','s'] ∧ ValidGeo ['u','1','k','w','u','m'] ∧
    ValidGeo ['u','1','k','w','u','u'] ∧
    check_within_bounds ['u','1','k','w','u','s'] ['u','1','k','w','u','m']
        ['u','1','k','w','u','u'] =
      some (check_within_bounds_lexicographic ['u','1','k','w','u','s']
        ['u','1','k','w','u','m'] ['u','1','k','w','u','u']) :=
  ⟨by decide, by decide, by decide,
    bounds_checks_agree _ _ _ (by decide) (by decide) (by decide)⟩

end GeoHash
